import Mathlib

/-!
Shallow embedding of the `octopart.api.match` batched match dispatcher
(`src/octopart/api.py`) and verification of its specification.

The dispatcher deduplicates input MPN identifiers, builds one query per
unique identifier (or per identifier × seller pair when a sellers list is
supplied), splits the query list into fixed-size chunks, dispatches each
chunk through an injected request collaborator (`client.match`), and
flattens the per-chunk responses back into a single ordered result list.
-/

/-- Fixed size of the worker pool used for concurrent chunk dispatch
(`MAX_REQUEST_THREADS = 10` in `src/octopart/api.py`).  The pool size is a
throttle only; it does not influence the assembled results. -/
def MAX_REQUEST_THREADS : Nat := 10

/-- The three boolean batch-level option flags of `match`
(`specs`, `imagesets`, `descriptions`). -/
structure MatchFlags where
  specs : Bool
  imagesets : Bool
  descriptions : Bool
deriving DecidableEq, Repr

/-- One query dictionary built by `match`: the free-form search term `q`,
an optional `seller` constraint (present exactly in the sellers branch),
and the `reference` tag used to correlate results back to inputs. -/
structure PartsMatchQuery where
  q : String
  seller : Option String
  reference : String
deriving DecidableEq, Repr

/-- The collaborator's response to one chunk request: we model only the
`results` field that `match` reads (`response['results']`); each entry is
an opaque payload of type `ρ`. -/
structure PartsMatchResponse (ρ : Type) where
  results : List ρ
deriving DecidableEq, Repr

/-- The wrapper object `models.PartsMatchResult` that `match` constructs
around each raw result entry. -/
structure PartsMatchResult (ρ : Type) where
  result : ρ
deriving DecidableEq, Repr

/-- Modelled from the spec: `utils.unique` (module `octopart/utils.py`,
not present under `src/`).  Per §4.1 step 1, it removes duplicate
identifiers by exact string equality, preserving the order of first
appearance. -/
def unique : List String → List String
  | [] => []
  | x :: xs => x :: ((unique xs).filter fun y => y != x)

/-- `itertools.product` on two lists, as used at line 59 of
`src/octopart/api.py`: all pairs in left-major, right-minor order. -/
def product (xs : List α) (ys : List β) : List (α × β) :=
  xs.flatMap fun x => ys.map fun y => (x, y)

/-- Query construction of `match` (lines 41-60 of `src/octopart/api.py`):
deduplicate the MPNs, then either one query per unique MPN
(`sellers is None`) or one query per element of
`itertools.product(unique_mpns, sellers)`. -/
def matchQueries (mpns : List String) (sellers : Option (List String)) :
    List PartsMatchQuery :=
  let unique_mpns := unique mpns
  match sellers with
  | none => unique_mpns.map fun mpn => { q := mpn, seller := none, reference := mpn }
  | some ss => (product unique_mpns ss).map fun p =>
      { q := p.1, seller := some p.2, reference := p.1 }

/-- Modelled from the spec: `utils.chunked` (module `octopart/utils.py`,
not present under `src/`).  Per §4.1 step 3 it partitions the query list
positionally into fixed-size chunks in order, each of size `k` except
possibly the last; like Python's
`[l[i:i+k] for i in range(0, len(l), k)]`, where `range(0, n, k)` has
`ceil(n / k)` elements. -/
def chunked (l : List α) (k : Nat) : List (List α) :=
  (List.range' 0 ((l.length + k - 1) / k) k).map fun i => (l.drop i).take k

/-- Caller-supplied input collections, threaded through the dispatcher so
that the frame condition (no mutation of the caller's lists) is explicit
in the embedding. -/
structure CallerInputs where
  mpns : List String
  sellers : Option (List String)
deriving DecidableEq, Repr

/-- The body of `match` (lines 41-78 of `src/octopart/api.py`) as a state
transformer on the caller-supplied collections: every step (dedup, query
construction, chunking, dispatch, flattening) only reads `st`, so the
final caller state is returned alongside the flattened result list.
`collab` is the injected request collaborator `client.match`; each chunk
becomes one collaborator call carrying the batch-level flags, and the
responses' `results` entries are flattened in chunk order, each wrapped
as a `PartsMatchResult`. -/
def matchSteps (collab : List PartsMatchQuery → MatchFlags → PartsMatchResponse ρ)
    (k : Nat) (flags : MatchFlags) (st : CallerInputs) :
    CallerInputs × List (PartsMatchResult ρ) :=
  let queries := matchQueries st.mpns st.sellers
  let responses := (chunked queries k).map fun chunk => collab chunk flags
  (st, responses.flatMap fun response => response.results.map fun r => { result := r })

/-- `octopart.api.match` with the request collaborator dispatched
sequentially in submission order (the reference semantics: `pool.map`
yields results in submission order regardless of completion order). -/
def matchParts (collab : List PartsMatchQuery → MatchFlags → PartsMatchResponse ρ)
    (k : Nat) (mpns : List String) (sellers : Option (List String))
    (flags : MatchFlags) : List (PartsMatchResult ρ) :=
  (matchSteps collab k flags { mpns := mpns, sellers := sellers }).2

/-- The trace of collaborator invocations performed by `match`: one call
per chunk, in chunk order, each carrying that chunk's queries and the
caller's batch-level flags. -/
def matchCallTrace (k : Nat) (mpns : List String) (sellers : Option (List String))
    (flags : MatchFlags) : List (List PartsMatchQuery × MatchFlags) :=
  (chunked (matchQueries mpns sellers) k).map fun chunk => (chunk, flags)

/-! ### Properties of `unique` (first-occurrence deduplication) -/

theorem mem_unique (y : String) (l : List String) : y ∈ unique l ↔ y ∈ l := by
  induction l with
  | nil => simp [unique]
  | cons x xs ih =>
    by_cases h : y = x
    · simp [unique, h]
    · simp [unique, List.mem_filter, ih, h, bne_iff_ne]

theorem nodup_unique (l : List String) : (unique l).Nodup := by
  induction l with
  | nil => simp [unique]
  | cons x xs ih =>
    rw [unique, List.nodup_cons]
    refine ⟨fun hx => ?_, ih.filter _⟩
    have := (List.mem_filter.1 hx).2
    simp at this

theorem unique_pairwise_indexOf (l : List String) :
    (unique l).Pairwise fun a b => l.indexOf a < l.indexOf b := by
  induction l with
  | nil => simp [unique]
  | cons x xs ih =>
    rw [unique, List.pairwise_cons]
    constructor
    · intro b hb
      have hbx : b ≠ x := by
        have := (List.mem_filter.1 hb).2
        simpa using this
      rw [List.indexOf_cons_self, List.indexOf_cons_ne _ (Ne.symm hbx)]
      exact Nat.succ_pos _
    · refine (ih.filter _).imp_of_mem ?_
      intro a b ha hb hab
      have hax : a ≠ x := by
        have := (List.mem_filter.1 ha).2
        simpa using this
      have hbx : b ≠ x := by
        have := (List.mem_filter.1 hb).2
        simpa using this
      rw [List.indexOf_cons_ne _ (Ne.symm hax), List.indexOf_cons_ne _ (Ne.symm hbx)]
      omega

/-! ### Query construction -/

/-- The sellers branch of `match` builds queries in identifier-major,
seller-minor order: the nested-loop (`flatMap`/`map`) normal form of
`itertools.product(unique_mpns, sellers)`. -/
theorem matchQueries_some_eq (mpns ss : List String) :
    matchQueries mpns (some ss) =
      (unique mpns).flatMap fun m =>
        ss.map fun s => { q := m, seller := some s, reference := m } := by
  simp [matchQueries, product, List.map_flatMap, List.map_map]
  rfl

theorem matchQueries_nil (sellers : Option (List String)) :
    matchQueries [] sellers = [] := by
  cases sellers <;> simp [matchQueries, unique, product]

/-- A `flatMap` over a mapped list fuses into a single `flatMap`. -/
theorem flatMap_map_fuse (f : α → β) (g : β → List γ) (l : List α) :
    (l.map f).flatMap g = l.flatMap fun a => g (f a) := by
  induction l with
  | nil => rfl
  | cons x xs ih => simp [ih]

/-- C3: with sellers omitted, `match` builds exactly one query per unique
identifier (uniqueness by exact string equality), in order of first
occurrence, each query carrying both its `q` field and its `reference`
field equal to that identifier. -/
theorem c3_dedup_one_query_per_unique_identifier (mpns : List String) :
    matchQueries mpns none =
      ((unique mpns).map fun m => { q := m, seller := none, reference := m })
    ∧ (unique mpns).Nodup
    ∧ (∀ m, m ∈ unique mpns ↔ m ∈ mpns)
    ∧ (unique mpns).Pairwise (fun a b => mpns.indexOf a < mpns.indexOf b) := by
  exact ⟨rfl, nodup_unique mpns, fun m => mem_unique m mpns, unique_pairwise_indexOf mpns⟩

/-- C4: with a sellers list, `match` builds exactly one query per
(unique identifier, seller) pair of the Cartesian product, in
identifier-major, seller-minor order; in particular identifiers
`["A", "B"]` with sellers `["X", "Y"]` yield exactly the four queries
(A,X), (A,Y), (B,X), (B,Y) in that order, each with `reference` equal to
its identifier. -/
theorem c4_cartesian_expansion :
    (∀ mpns ss : List String,
      matchQueries mpns (some ss) =
        (unique mpns).flatMap fun m =>
          ss.map fun s => { q := m, seller := some s, reference := m })
    ∧ matchQueries ["A", "B"] (some ["X", "Y"]) =
        [{ q := "A", seller := some "X", reference := "A" },
         { q := "A", seller := some "Y", reference := "A" },
         { q := "B", seller := some "X", reference := "B" },
         { q := "B", seller := some "Y", reference := "B" }] := by
  exact ⟨matchQueries_some_eq, by decide⟩

/-- C5 counterexample: with the one-element identifier list `["A"]`, an
explicitly empty sellers list yields zero queries and an empty `match`
result (with zero collaborator calls), whereas omitted sellers (`None`)
yields one query — so an empty sellers sequence is *not* treated the same
as an omitted one, and does not give one query per unique identifier. -/
theorem c5_counterexample :
    matchQueries ["A"] (some []) = []
    ∧ matchQueries ["A"] none = [{ q := "A", seller := none, reference := "A" }]
    ∧ matchQueries ["A"] (some []) ≠ matchQueries ["A"] none
    ∧ matchParts (fun _ _ => PartsMatchResponse.mk [0]) 20 ["A"] (some [])
        { specs := false, imagesets := false, descriptions := false } = []
    ∧ matchParts (fun _ _ => PartsMatchResponse.mk [0]) 20 ["A"] none
        { specs := false, imagesets := false, descriptions := false }
        = [{ result := 0 }] := by
  refine ⟨by decide, by decide, by decide, by decide, by decide⟩

theorem chunked_nil (k : Nat) : chunked ([] : List α) k = [] := by
  unfold chunked
  have h : (List.length ([] : List α) + k - 1) / k = 0 := by
    cases k with
    | zero => simp
    | succ n => simp [Nat.div_eq_of_lt]
  rw [h]
  rfl

/-- C5 (amended): when the sellers argument is an explicitly empty
sequence, `match` builds zero queries (the Cartesian product with an
empty sellers list is empty), returns an empty result list, and makes no
collaborator calls — unlike omitted sellers, which yields one query per
unique identifier. -/
theorem c5_empty_sellers_zero_queries (ρ : Type)
    (collab : List PartsMatchQuery → MatchFlags → PartsMatchResponse ρ)
    (k : Nat) (mpns : List String) (flags : MatchFlags) :
    matchQueries mpns (some []) = []
    ∧ matchParts collab k mpns (some []) flags = []
    ∧ matchCallTrace k mpns (some []) flags = [] := by
  have hq : matchQueries mpns (some []) = [] := by
    simp [matchQueries, product]
  refine ⟨hq, ?_, ?_⟩
  · simp [matchParts, matchSteps, hq, chunked_nil]
  · simp [matchCallTrace, hq, chunked_nil]

/-- C7: with an empty identifiers list, `match` returns an empty result
list and makes zero calls to the request collaborator (for any sellers
argument, batch size, and flags). -/
theorem c7_empty_input_no_calls (ρ : Type)
    (collab : List PartsMatchQuery → MatchFlags → PartsMatchResponse ρ)
    (k : Nat) (sellers : Option (List String)) (flags : MatchFlags) :
    matchParts collab k [] sellers flags = []
    ∧ matchCallTrace k [] sellers flags = [] := by
  constructor
  · simp [matchParts, matchSteps, matchQueries_nil, chunked_nil]
  · simp [matchCallTrace, matchQueries_nil, chunked_nil]

/-- C8: the three boolean option flags are passed unchanged to every
chunk's collaborator call — every entry of the call trace carries exactly
the caller's flags — and the flattened `match` result is assembled from
exactly those calls. -/
theorem c8_flags_passed_unchanged (ρ : Type)
    (collab : List PartsMatchQuery → MatchFlags → PartsMatchResponse ρ)
    (k : Nat) (mpns : List String) (sellers : Option (List String))
    (flags : MatchFlags) :
    (∀ p ∈ matchCallTrace k mpns sellers flags, p.2 = flags)
    ∧ matchParts collab k mpns sellers flags =
        (matchCallTrace k mpns sellers flags).flatMap fun p =>
          (collab p.1 p.2).results.map fun r => { result := r } := by
  constructor
  · intro p hp
    rcases List.mem_map.1 hp with ⟨c, _, hc⟩
    rw [← hc]
  · rw [matchCallTrace, flatMap_map_fuse]
    rw [matchParts, matchSteps, flatMap_map_fuse]

/-- C9: `match` never mutates the caller-supplied input collections: the
caller state threaded through every step of the dispatcher comes back
unchanged, so the `mpns` list and the `sellers` list (when provided) are
element-for-element the same after the call. -/
theorem c9_inputs_not_mutated (ρ : Type)
    (collab : List PartsMatchQuery → MatchFlags → PartsMatchResponse ρ)
    (k : Nat) (flags : MatchFlags) (st : CallerInputs) :
    (matchSteps collab k flags st).1 = st
    ∧ (matchSteps collab k flags st).1.mpns = st.mpns
    ∧ (matchSteps collab k flags st).1.sellers = st.sellers := by
  exact ⟨rfl, rfl, rfl⟩

/-! ### Chunking -/

theorem chunked_length (l : List α) (k : Nat) :
    (chunked l k).length = (l.length + k - 1) / k := by
  simp [chunked]

theorem chunked_getElem (l : List α) (k i : Nat) (h : i < (chunked l k).length) :
    (chunked l k)[i] = (l.drop (k * i)).take k := by
  unfold chunked at h ⊢
  rw [List.getElem_map, List.getElem_range']
  rw [Nat.zero_add]

theorem join_chunkSlices (l : List α) (k : Nat) :
    ∀ (c s : Nat),
      ((List.range' s c k).map fun i => (l.drop i).take k).flatten = (l.drop s).take (c * k) := by
  intro c
  induction c with
  | zero => intro s; simp
  | succ c ih =>
    intro s
    rw [List.range'_succ, List.map_cons, List.flatten_cons, ih (s + k), ← List.drop_drop,
      ← List.take_add]
    congr 1
    rw [Nat.succ_mul]
    omega

theorem chunked_join (l : List α) (k : Nat) (hk : 0 < k) : (chunked l k).flatten = l := by
  unfold chunked
  rw [join_chunkSlices, List.drop_zero, Nat.mul_comm]
  apply List.take_of_length_le
  have hdm := Nat.div_add_mod (l.length + k - 1) k
  have hmod := Nat.mod_lt (l.length + k - 1) hk
  omega

theorem chunked_mem_length (l : List α) (k : Nat) (hk : 0 < k) (c : List α)
    (hc : c ∈ chunked l k) : 0 < c.length ∧ c.length ≤ k := by
  rcases List.mem_iff_getElem.1 hc with ⟨i, hi, hgi⟩
  rw [chunked_getElem l k i hi] at hgi
  have hi' : i < (l.length + k - 1) / k := by
    rw [chunked_length] at hi; exact hi
  have hdm := Nat.div_add_mod (l.length + k - 1) k
  have hmod := Nat.mod_lt (l.length + k - 1) hk
  have hmul : k * (i + 1) ≤ k * ((l.length + k - 1) / k) := Nat.mul_le_mul_left k hi'
  have hms : k * (i + 1) = k * i + k := Nat.mul_succ k i
  rw [← hgi, List.length_take, List.length_drop]
  omega

theorem chunked_dropLast_length (l : List α) (k : Nat) (hk : 0 < k) (c : List α)
    (hc : c ∈ (chunked l k).dropLast) : c.length = k := by
  rcases List.mem_iff_getElem.1 hc with ⟨i, hi, hgi⟩
  rw [List.getElem_dropLast] at hgi
  have hlast := List.length_dropLast (chunked l k)
  have hi2 : i < (chunked l k).length := by omega
  rw [chunked_getElem l k i hi2] at hgi
  have hi' : i + 1 < (l.length + k - 1) / k := by
    rw [hlast, chunked_length] at hi; omega
  have hdm := Nat.div_add_mod (l.length + k - 1) k
  have hmod := Nat.mod_lt (l.length + k - 1) hk
  have hmul : k * (i + 2) ≤ k * ((l.length + k - 1) / k) := Nat.mul_le_mul_left k (by omega)
  have hms1 : k * (i + 1) = k * i + k := Nat.mul_succ k i
  have hms2 : k * (i + 2) = k * (i + 1) + k := Nat.mul_succ k (i + 1)
  rw [← hgi, List.length_take, List.length_drop]
  omega

/-- C6: for a query list of length `N` and batch size `K > 0`, the query
list is partitioned positionally, in order, into exactly `⌈N / K⌉`
(= `(N + K - 1) / K`) chunks whose concatenation restores the list; every
chunk except possibly the last has size exactly `K`, every chunk is
non-empty of size at most `K`, and `match` passes each chunk to exactly
one collaborator call (the call trace is the chunk list in order). -/
theorem c6_chunk_partition (α : Type) (l : List α) (k : Nat) (hk : 0 < k) :
    (chunked l k).length = (l.length + k - 1) / k
    ∧ (chunked l k).flatten = l
    ∧ (∀ c ∈ (chunked l k).dropLast, c.length = k)
    ∧ (∀ c ∈ chunked l k, 0 < c.length ∧ c.length ≤ k)
    ∧ (∀ (mpns : List String) (sellers : Option (List String)) (flags : MatchFlags),
        (matchCallTrace k mpns sellers flags).map Prod.fst =
          chunked (matchQueries mpns sellers) k) := by
  refine ⟨chunked_length l k, chunked_join l k hk,
    fun c hc => chunked_dropLast_length l k hk c hc,
    fun c hc => chunked_mem_length l k hk c hc,
    fun mpns sellers flags => ?_⟩
  simp [matchCallTrace, List.map_map, Function.comp_def]

/-- Witness for C6 at the concrete list `[0, 1, 2, 3, 4]` with batch size
2 (three chunks: `[0,1]`, `[2,3]`, `[4]`). -/
theorem c6_chunk_partition_witness :
    0 < 2
    ∧ ((chunked ([0, 1, 2, 3, 4] : List Nat) 2).length =
          (([0, 1, 2, 3, 4] : List Nat).length + 2 - 1) / 2
      ∧ (chunked ([0, 1, 2, 3, 4] : List Nat) 2).flatten = [0, 1, 2, 3, 4]
      ∧ (∀ c ∈ (chunked ([0, 1, 2, 3, 4] : List Nat) 2).dropLast, c.length = 2)
      ∧ (∀ c ∈ chunked ([0, 1, 2, 3, 4] : List Nat) 2, 0 < c.length ∧ c.length ≤ 2)
      ∧ (∀ (mpns : List String) (sellers : Option (List String)) (flags : MatchFlags),
          (matchCallTrace 2 mpns sellers flags).map Prod.fst =
            chunked (matchQueries mpns sellers) 2)) :=
  ⟨by decide, c6_chunk_partition Nat [0, 1, 2, 3, 4] 2 (by decide)⟩

/-! ### Concurrent dispatch (the `ThreadPoolExecutor.map` semantics) -/

/-- The worker pool's completion table: the chunks are dispatched
concurrently and complete in the arbitrary order `sched` (a permutation
of the chunk indices); the pool records, keyed by submission index, the
collaborator's response for each completed chunk. -/
def poolMapTable (f : α → β) (xs : List α) (sched : List Nat) : List (Nat × β) :=
  sched.filterMap fun j => (xs[j]?).map fun x => (j, f x)

/-- Assembly of `ThreadPoolExecutor.map`: results are read back in
submission order (index `0, 1, …, n-1`), looking each index up in the
completion table — never in completion order. -/
def assembleResponses (n : Nat) (table : List (Nat × β)) : List (Option β) :=
  (List.range n).map fun i => (table.find? fun p => p.1 == i).map Prod.snd

/-- `octopart.api.match` under concurrent chunk dispatch: the chunks
complete in the arbitrary order `sched`, and the flattened result list is
assembled from the completion table in submission order (lines 71-78 of
`src/octopart/api.py`). -/
def matchConcurrent (collab : List PartsMatchQuery → MatchFlags → PartsMatchResponse ρ)
    (k : Nat) (mpns : List String) (sellers : Option (List String))
    (flags : MatchFlags) (sched : List Nat) : List (PartsMatchResult ρ) :=
  let chunks := chunked (matchQueries mpns sellers) k
  let table := poolMapTable (fun chunk => collab chunk flags) chunks sched
  (assembleResponses chunks.length table).flatMap fun entry =>
    match entry with
    | some response => response.results.map fun r => { result := r }
    | none => []

theorem poolMapTable_find (f : α → β) (xs : List α) (sched : List Nat) (i : Nat) (x : α)
    (hmem : i ∈ sched) (hx : xs[i]? = some x) :
    (poolMapTable f xs sched).find? (fun p => p.1 == i) = some (i, f x) := by
  induction sched with
  | nil => cases hmem
  | cons j rest ih =>
    simp only [poolMapTable, List.filterMap_cons]
    by_cases hji : j = i
    · subst hji
      rw [hx]
      simp only [Option.map_some']
      exact List.find?_cons_of_pos _ (by simp)
    · have hmem' : i ∈ rest := by
        rcases List.mem_cons.1 hmem with h | h
        · exact absurd h.symm hji
        · exact h
      cases hgj : xs[j]? with
      | none => exact ih hmem'
      | some y =>
        simp only [Option.map_some']
        rw [List.find?_cons_of_neg _ (by simp [hji])]
        exact ih hmem'

theorem assemble_poolMapTable (f : α → β) (xs : List α) (sched : List Nat)
    (hs : ∀ i, i < xs.length → i ∈ sched) :
    assembleResponses xs.length (poolMapTable f xs sched) =
      xs.map fun x => some (f x) := by
  apply List.ext_getElem?
  intro i
  by_cases hi : i < xs.length
  · have hx : xs[i]? = some xs[i] := List.getElem?_eq_getElem hi
    rw [assembleResponses, List.getElem?_map, List.getElem?_map]
    rw [List.getElem?_range (by simpa using hi), hx]
    simp only [Option.map_some']
    rw [poolMapTable_find f xs sched i xs[i] (hs i hi) hx]
    rfl
  · rw [assembleResponses, List.getElem?_map, List.getElem?_map]
    rw [List.getElem?_eq_none (by simpa using Nat.le_of_not_lt hi),
      List.getElem?_eq_none (Nat.le_of_not_lt hi)]
    rfl

/-- C1: regardless of the completion order of the concurrently dispatched
chunks (any permutation of the chunk indices), the flattened result
sequence of `match` equals the one obtained by dispatching the chunks
strictly sequentially in submission order and concatenating, in chunk
order, each chunk response's `results` entries (each wrapped as a
`PartsMatchResult`), preserving each chunk's internal entry order. -/
theorem c1_concurrent_refines_sequential (ρ : Type)
    (collab : List PartsMatchQuery → MatchFlags → PartsMatchResponse ρ)
    (k : Nat) (mpns : List String) (sellers : Option (List String))
    (flags : MatchFlags) (sched : List Nat)
    (hperm : sched.Perm (List.range (chunked (matchQueries mpns sellers) k).length)) :
    matchConcurrent collab k mpns sellers flags sched =
      matchParts collab k mpns sellers flags := by
  have hs : ∀ i, i < (chunked (matchQueries mpns sellers) k).length → i ∈ sched :=
    fun i hi => hperm.mem_iff.2 (List.mem_range.2 hi)
  simp only [matchConcurrent, matchParts, matchSteps]
  rw [assemble_poolMapTable _ _ _ hs]
  rw [flatMap_map_fuse, flatMap_map_fuse]

/-- Witness for C1: three single-query chunks completing in the order
2, 0, 1 still assemble to the sequential result. -/
theorem c1_concurrent_refines_sequential_witness :
    ([2, 0, 1] : List Nat).Perm
      (List.range (chunked (matchQueries ["A", "B", "C"] none) 1).length)
    ∧ matchConcurrent (fun chunk _ => PartsMatchResponse.mk [chunk.length]) 1
        ["A", "B", "C"] none
        { specs := false, imagesets := false, descriptions := false } [2, 0, 1] =
      matchParts (fun chunk _ => PartsMatchResponse.mk [chunk.length]) 1
        ["A", "B", "C"] none
        { specs := false, imagesets := false, descriptions := false } :=
  ⟨by decide,
   c1_concurrent_refines_sequential Nat (fun chunk _ => PartsMatchResponse.mk [chunk.length])
     1 ["A", "B", "C"] none
     { specs := false, imagesets := false, descriptions := false } [2, 0, 1] (by decide)⟩

/-! ### Failure propagation -/

/-- Iterating the pool's responses in submission order when the
collaborator may raise: the first chunk (in submission order) whose
dispatch raised propagates its exception; otherwise all responses are
collected in order. -/
def mapExceptList (f : α → Except ε β) : List α → Except ε (List β)
  | [] => .ok []
  | x :: xs =>
    match f x with
    | .error e => .error e
    | .ok y =>
      match mapExceptList f xs with
      | .error e => .error e
      | .ok ys => .ok (y :: ys)

/-- `octopart.api.match` with a fallible request collaborator: either
every chunk dispatch succeeds and the flattened result list is returned,
or the exception of the first failing chunk is propagated unchanged and
no partial result list is produced. -/
def matchExcept (collab : List PartsMatchQuery → MatchFlags → Except ε (PartsMatchResponse ρ))
    (k : Nat) (mpns : List String) (sellers : Option (List String)) (flags : MatchFlags) :
    Except ε (List (PartsMatchResult ρ)) :=
  match mapExceptList (fun chunk => collab chunk flags)
      (chunked (matchQueries mpns sellers) k) with
  | .error e => .error e
  | .ok responses =>
      .ok (responses.flatMap fun response => response.results.map fun r => { result := r })

theorem mapExceptList_error (f : α → Except ε β) (xs : List α) (i : Nat) (x : α) (e : ε)
    (hx : xs[i]? = some x) (he : f x = .error e)
    (hprev : ∀ j, j < i → ∀ y, xs[j]? = some y → ∃ r, f y = .ok r) :
    mapExceptList f xs = .error e := by
  induction xs generalizing i with
  | nil => simp at hx
  | cons a as ih =>
    cases i with
    | zero =>
      have ha : a = x := by simpa using hx
      rw [mapExceptList, ha, he]
    | succ n =>
      obtain ⟨r0, hr0⟩ := hprev 0 (Nat.succ_pos n) a (by simp)
      have hx' : as[n]? = some x := by simpa using hx
      have hprev' : ∀ j, j < n → ∀ y, as[j]? = some y → ∃ r, f y = .ok r := by
        intro j hj y hy
        exact hprev (j + 1) (by omega) y (by simpa using hy)
      rw [mapExceptList, hr0, ih n hx' hprev']

/-- C2: if the dispatch of some chunk raises while every earlier chunk
(in submission order) succeeds, the whole `match` call propagates exactly
that exception and returns no (partial) result list. -/
theorem c2_failure_propagation (ρ ε : Type)
    (collab : List PartsMatchQuery → MatchFlags → Except ε (PartsMatchResponse ρ))
    (k : Nat) (mpns : List String) (sellers : Option (List String)) (flags : MatchFlags)
    (i : Nat) (c : List PartsMatchQuery) (e : ε)
    (hc : (chunked (matchQueries mpns sellers) k)[i]? = some c)
    (he : collab c flags = .error e)
    (hprev : ∀ j, j < i → ∀ cj, (chunked (matchQueries mpns sellers) k)[j]? = some cj →
      ∃ r, collab cj flags = .ok r) :
    matchExcept collab k mpns sellers flags = .error e
    ∧ ∀ results, matchExcept collab k mpns sellers flags ≠ .ok results := by
  have herr : mapExceptList (fun chunk => collab chunk flags)
      (chunked (matchQueries mpns sellers) k) = .error e :=
    mapExceptList_error _ _ i c e hc he hprev
  constructor
  · rw [matchExcept, herr]
  · intro results hok
    rw [matchExcept, herr] at hok
    exact Except.noConfusion hok

/-- Witness for C2: two single-query chunks where the second chunk's
dispatch raises `"boom"` and the first succeeds; `match` propagates
`"boom"`. -/
theorem c2_failure_propagation_witness :
    ((chunked (matchQueries ["A", "B"] none) 1)[1]? =
        some [{ q := "B", seller := none, reference := "B" }]
      ∧ (fun (chunk : List PartsMatchQuery) (_ : MatchFlags) =>
          if chunk = [{ q := "B", seller := none, reference := "B" }] then
            (Except.error "boom" : Except String (PartsMatchResponse Nat))
          else .ok (PartsMatchResponse.mk [7]))
          [{ q := "B", seller := none, reference := "B" }]
          { specs := false, imagesets := false, descriptions := false } = .error "boom")
    ∧ matchExcept
        (fun (chunk : List PartsMatchQuery) (_ : MatchFlags) =>
          if chunk = [{ q := "B", seller := none, reference := "B" }] then
            (Except.error "boom" : Except String (PartsMatchResponse Nat))
          else .ok (PartsMatchResponse.mk [7]))
        1 ["A", "B"] none
        { specs := false, imagesets := false, descriptions := false } = .error "boom" := by
  refine ⟨⟨by decide, rfl⟩, ?_⟩
  exact (c2_failure_propagation Nat String
    (fun chunk _ =>
      if chunk = [{ q := "B", seller := none, reference := "B" }] then
        .error "boom"
      else .ok (PartsMatchResponse.mk [7]))
    1 ["A", "B"] none { specs := false, imagesets := false, descriptions := false }
    1 [{ q := "B", seller := none, reference := "B" }] "boom"
    (by decide) rfl
    (by
      intro j hj cj hcj
      have hj0 : j = 0 := by omega
      subst hj0
      have : cj = [{ q := "A", seller := none, reference := "A" }] := by
        rw [show (chunked (matchQueries ["A", "B"] none) 1)[0]? =
            some [{ q := "A", seller := none, reference := "A" }] from by decide] at hcj
        exact (Option.some.inj hcj).symm
      subst this
      exact ⟨PartsMatchResponse.mk [7], rfl⟩)).1

/-! ### Seller multiplicity -/

theorem count_map_mkQuery (x m s : String) (ss : List String) :
    ((ss.map fun y => ({ q := x, seller := some y, reference := x } : PartsMatchQuery)).count
      { q := m, seller := some s, reference := m }) =
      if x = m then ss.count s else 0 := by
  induction ss with
  | nil => simp
  | cons y ys ih =>
    rw [List.map_cons, List.count_cons, ih, List.count_cons]
    by_cases hxm : x = m
    · subst hxm
      by_cases hys : y = s
      · subst hys; simp
      · simp [hys, beq_iff_eq, PartsMatchQuery.mk.injEq]
    · simp [hxm, beq_iff_eq, PartsMatchQuery.mk.injEq]

theorem count_flatMap_mkQuery (m s : String) (ss : List String) :
    ∀ u : List String, u.Nodup →
      ((u.flatMap fun x => ss.map fun y =>
          ({ q := x, seller := some y, reference := x } : PartsMatchQuery)).count
        { q := m, seller := some s, reference := m }) =
        (if m ∈ u then 1 else 0) * ss.count s := by
  intro u
  induction u with
  | nil => intro _; simp
  | cons x xs ih =>
    intro hnd
    rw [List.flatMap_cons, List.count_append, count_map_mkQuery,
      ih (List.nodup_cons.1 hnd).2]
    by_cases hxm : x = m
    · subst hxm
      have hnm : x ∉ xs := (List.nodup_cons.1 hnd).1
      simp [hnm]
    · have hmx : ¬ m = x := fun h => hxm h.symm
      simp [List.mem_cons, hmx, hxm]

/-- C10: the sellers sequence is not deduplicated: for every identifier
`m` and seller `s`, the number of queries `match` builds for the pair is
the multiplicity of `s` in the sellers list (times 1 when `m` occurs in
the identifiers, 0 otherwise) — so a seller listed twice produces two
identical queries per unique identifier, while repeated identifiers still
collapse to one. -/
theorem c10_sellers_not_deduplicated :
    (∀ (mpns ss : List String) (m s : String),
      ((matchQueries mpns (some ss)).count { q := m, seller := some s, reference := m }) =
        (if m ∈ mpns then 1 else 0) * ss.count s)
    ∧ matchQueries ["A"] (some ["X", "X"]) =
        [{ q := "A", seller := some "X", reference := "A" },
         { q := "A", seller := some "X", reference := "A" }] := by
  constructor
  · intro mpns ss m s
    rw [matchQueries_some_eq, count_flatMap_mkQuery m s ss (unique mpns) (nodup_unique mpns)]
    by_cases hm : m ∈ mpns
    · simp [hm, (mem_unique m mpns).2 hm]
    · have hnm : m ∉ unique mpns := fun h => hm ((mem_unique m mpns).1 h)
      simp [hm, hnm]
  · decide
